import Mathlib

/-!
# Verification of the nonogram puzzle-state engine

Shallow embedding of the puzzle-state engine in `src/nonogram_board.rs`.

Modelling conventions:
* a cell of the `u8` grid is a `Nat` (0 = empty, 1 = filled, 2 = marked);
* the `i8` hint tables hold `Int` entries (board dimensions keep every run
  length far below the `i8` range, so wrapping is not modelled);
* `count_black` / `goal_black` (`u64` in the source) are `Nat`: the guarded
  decrement and the bounded increments keep them far below `2^64`;
* the wall clock (`Instant::now()`) is a `Nat` argument `now` passed to `set`,
  and `game_end` stores such a stamp;
* the Bernoulli sampler of `set_goal` is an oracle `coin : Nat → Nat → Bool`
  giving the draw for each cell `(col, row)`;
* the two-element axis vectors (`nums_per`, `goal_nums`, `current_nums`) are
  pairs, component 1 standing for index 0 (columns) and component 2 for
  index 1 (rows);
* `Vec` indexing is `List.getD`; all theorems about indexed access carry the
  in-bounds side conditions under which the Rust code does not panic.
-/

/-- A cell of the `data` grid: 0 = empty, 1 = filled, 2 = marked. -/
abbrev Cell := Nat

/-- The cell grid `data`, indexed `data[col][row]`. -/
abbrev Grid := List (List Cell)

/-- `(len as f64 / 2.0_f64).round() as u64` from `init_new`, modelled in exact
rational arithmetic (`len / 2.0` is computed exactly in `f64` for every
realistic dimension, and Rust's round-half-away-from-zero agrees with
`round`'s round-half-up on nonnegative arguments). -/
def numsPerOf (len : Nat) : Nat := (round ((len : ℚ) / 2)).toNat

/-- The inner loop of `get_nums` over one line: state `num_hint` / `filling`,
`nums[..][num_hint] += 1` on a filled cell, advance `num_hint` on leaving a
run. -/
def lineNumsAux (slots : List Int) (num_hint : Nat) (filling : Bool) :
    List Cell → List Int
  | [] => slots
  | c :: rest =>
    if c = 1 then
      lineNumsAux (slots.set num_hint (slots.getD num_hint 0 + 1)) num_hint true rest
    else if filling then
      lineNumsAux slots (num_hint + 1) false rest
    else
      lineNumsAux slots num_hint false rest

/-- One line of `get_nums`: the slot vector starts as `vec![0; cap]` with
`num_hint = 0`, `filling = false`. -/
def lineNums (cap : Nat) (line : List Cell) : List Int :=
  lineNumsAux (List.replicate cap 0) 0 false line

/-- The cells `data[col][0..rows]` read by the column pass of `get_nums`. -/
def colLine (data : Grid) (rows col : Nat) : List Cell :=
  (List.range rows).map fun row => (data.getD col []).getD row 0

/-- The cells `data[0..cols][row]` read by the row pass of `get_nums`. -/
def rowLine (data : Grid) (cols row : Nat) : List Cell :=
  (List.range cols).map fun col => (data.getD col []).getD row 0

/-- The fields of `NonogramBoard` the engine logic reads and writes.  The
rendering-only and I/O fields (`game_start`, `last_time`, `duration`,
`reset_board`, `init_ratio`, `next_dimensions`) are not modelled. -/
structure NonogramBoard where
  dimensions : Nat × Nat
  data : Grid
  nums_per : Nat × Nat
  goal_nums : List (List Int) × List (List Int)
  current_nums : List (List Int) × List (List Int)
  game_end : Option Nat
  end_game_screen : Bool
  count_black : Nat
  goal_black : Nat

/-- `get_nums`: per axis, per line in increasing index order, run the
accumulation loop over the orthogonal axis in increasing index order. -/
def NonogramBoard.get_nums (b : NonogramBoard) :
    List (List Int) × List (List Int) :=
  ((List.range b.dimensions.1).map fun col =>
      lineNums b.nums_per.1 (colLine b.data b.dimensions.2 col),
   (List.range b.dimensions.2).map fun row =>
      lineNums b.nums_per.2 (rowLine b.data b.dimensions.1 row))

/-- One line of `check_win`:
`goal.iter().zip(current.iter()).all(|(a,b)| a.abs() == b.abs())`. -/
def lineWin (g c : List Int) : Bool :=
  (g.zip c).all fun p => p.1.natAbs == p.2.natAbs

/-- `check_win`: every line of both axes must pass `lineWin` (the source
returns `false` at the first failing line). -/
def NonogramBoard.check_win (b : NonogramBoard) : Bool :=
  ((List.range b.dimensions.1).all fun k =>
      lineWin (b.goal_nums.1.getD k []) (b.current_nums.1.getD k []))
  && ((List.range b.dimensions.2).all fun k =>
      lineWin (b.goal_nums.2.getD k []) (b.current_nums.2.getD k []))

/-- The inner `while current_it < nums_per` loop of `update_crossouts`,
for one goal entry `g`: on a magnitude match (under `match_count = mc`) the
entry is negated if positive and `match_it` becomes `current_it + 1`;
otherwise the entry is normalized to its absolute value and the scan
continues.  `fuel` is `cap - current_it`, so `fuel = 0` is the loop exit. -/
def innerScan (current : List Int) (mc : Bool) :
    Int → Nat → Nat → Nat → Int × Nat
  | g, mi, _, 0 => (g, mi)
  | g, mi, ci, fuel + 1 =>
    if ((g.natAbs : Int) == current.getD ci 0) && mc then
      (if g > 0 then -g else g, ci + 1)
    else
      innerScan current mc (g.natAbs : Int) mi (ci + 1) fuel

/-- The outer `while goal_it < nums_per` loop of `update_crossouts` over one
line: skip zero goal entries, run `innerScan` on non-zero ones, then
`current_it = match_it; goal_it += 1`.  `fuel` is `cap - goal_it`. -/
def outerScan (current : List Int) (mc : Bool) (cap : Nat) :
    Nat → List Int → Nat → Nat → Nat → List Int
  | 0, goal, _, _, _ => goal
  | fuel + 1, goal, gi, ci, mi =>
    if goal.getD gi 0 ≠ 0 then
      let r := innerScan current mc (goal.getD gi 0) mi ci (cap - ci)
      outerScan current mc cap fuel (goal.set gi r.1) (gi + 1) r.2 r.2
    else
      outerScan current mc cap fuel goal (gi + 1) mi mi

/-- One line of `update_crossouts`: compute `match_count` from the counts of
non-zero entries, then run the two nested loops with
`current_it = goal_it = match_it = 0`. -/
def crossoutLine (cap : Nat) (goal current : List Int) : List Int :=
  let mc := decide ((current.filter fun n => n != 0).length
      ≤ (goal.filter fun n => n != 0).length)
  outerScan current mc cap cap goal 0 0 0

/-- `update_crossouts`: rewrite every line of `goal_nums` on both axes. -/
def NonogramBoard.update_crossouts (b : NonogramBoard) : NonogramBoard :=
  { b with goal_nums :=
      ((List.range b.dimensions.1).map fun k =>
          crossoutLine b.nums_per.1 (b.goal_nums.1.getD k [])
            (b.current_nums.1.getD k []),
       (List.range b.dimensions.2).map fun k =>
          crossoutLine b.nums_per.2 (b.goal_nums.2.getD k [])
            (b.current_nums.2.getD k [])) }

/-- `self.data[ind[0]][ind[1]] = v`. -/
def setCell (data : Grid) (ind : Nat × Nat) (v : Cell) : Grid :=
  data.set ind.1 ((data.getD ind.1 []).set ind.2 v)

/-- `get`: read one cell. -/
def NonogramBoard.get (b : NonogramBoard) (ind : Nat × Nat) : Cell :=
  (b.data.getD ind.1 []).getD ind.2 0

/-- `set`: toggle-or-store on the cell with the guarded `count_black`
bookkeeping, then recompute `current_nums`, update the crossouts, store
`check_win()` into `end_game_screen` and stamp `game_end` when it is true.
`now` models `Instant::now()`. -/
def NonogramBoard.set (b : NonogramBoard) (ind : Nat × Nat) (val : Cell)
    (now : Nat) : NonogramBoard :=
  let cell := (b.data.getD ind.1 []).getD ind.2 0
  let b1 :=
    if cell ≠ 0 then
      { b with data := setCell b.data ind 0,
               count_black :=
                 if cell = 1 ∧ b.count_black ≠ 0 then b.count_black - 1
                 else b.count_black }
    else
      { b with data := setCell b.data ind val,
               count_black :=
                 if val = 1 then b.count_black + 1 else b.count_black }
  let b2 := { b1 with current_nums := b1.get_nums }
  let b3 := b2.update_crossouts
  let won := b3.check_win
  { b3 with end_game_screen := won,
            game_end := if won then some now else b3.game_end }

/-- `set_goal`: for every cell of the grid in range, a successful Bernoulli
draw stores a filled cell. -/
def set_goal (data : Grid) (coin : Nat → Nat → Bool) : Grid :=
  data.mapIdx fun col colData =>
    colData.mapIdx fun row v => if coin col row then 1 else v

/-- `wipe_board`: every in-range cell back to empty. -/
def wipeData (data : Grid) : Grid :=
  data.map fun colData => colData.map fun _ => 0

/-- The number of filled cells of a grid (what `count_black` is claimed to
track, and what `set_goal` accumulates into `goal_black`). -/
def countFilled (data : Grid) : Nat :=
  (data.map fun colData => colData.count 1).sum

/-- A freshly generated board: `new` / `init_new` on the fresh-generation path
(no save data), followed by `initialize` = `set_goal`, `goal_nums = get_nums`,
`wipe_board`.  `current_nums` keeps the all-zero tables built in `init_new`. -/
def freshBoard (c r : Nat) (coin : Nat → Nat → Bool) : NonogramBoard :=
  let np : Nat × Nat := (numsPerOf r, numsPerOf c)
  let data0 : Grid := List.replicate c (List.replicate r 0)
  let b0 : NonogramBoard :=
    { dimensions := (c, r), data := data0, nums_per := np,
      goal_nums := (List.replicate c (List.replicate np.1 0),
                    List.replicate r (List.replicate np.2 0)),
      current_nums := (List.replicate c (List.replicate np.1 0),
                       List.replicate r (List.replicate np.2 0)),
      game_end := none, end_game_screen := false,
      count_black := 0, goal_black := 0 }
  let sol := set_goal data0 coin
  let b1 := { b0 with data := sol, goal_black := countFilled sol }
  let b2 := { b1 with goal_nums := b1.get_nums }
  { b2 with data := wipeData b2.data }

/-- Apply a sequence of `set` calls, each given as `(index, (value, now))`. -/
def applyOps (b : NonogramBoard) : List ((Nat × Nat) × Cell × Nat) → NonogramBoard
  | [] => b
  | op :: rest => applyOps (b.set op.1 op.2.1 op.2.2) rest

/-- Modelled from the spec's description of hint derivation: the lengths of
the maximal contiguous runs of filled cells of a line, in scan order;
`cur` is the length of the run currently open. -/
def runLengthsAux (cur : Nat) : List Cell → List Nat
  | [] => if cur = 0 then [] else [cur]
  | c :: rest =>
    if c = 1 then runLengthsAux (cur + 1) rest
    else if cur = 0 then runLengthsAux 0 rest
    else cur :: runLengthsAux 0 rest

/-- The maximal contiguous runs of filled cells of a line, in scan order. -/
def runLengths (line : List Cell) : List Nat := runLengthsAux 0 line

/-- Modelled from the spec's description of crossout matching: the first
current-run slot in `[s, cap)` not yet consumed whose value equals the
target magnitude `t`. -/
def firstMatch (current : List Int) (cap s : Nat) (t : Int) : Option Nat :=
  (List.range' s (cap - s)).find? fun j => current.getD j 0 == t

/-- Modelled from the spec's description of crossout matching: walk the goal
slots left to right with a consumed pointer `s`; a zero slot is skipped; a
non-zero slot becomes negative when some unconsumed current slot matches its
magnitude (consuming that slot), is normalized to its absolute value when the
(non-empty) scan finds no match, and is left alone when no slot is left to
scan. -/
def greedyLineAux (current : List Int) (cap : Nat) : List Int → Nat → List Int
  | [], _ => []
  | g :: rest, s =>
    if g = 0 then g :: greedyLineAux current cap rest s
    else
      match firstMatch current cap s (g.natAbs : Int) with
      | some j => (-(g.natAbs : Int)) :: greedyLineAux current cap rest (j + 1)
      | none =>
          (if s < cap then (g.natAbs : Int) else g) :: greedyLineAux current cap rest s

/-- The spec-side greedy, order-preserving, one-to-one matching for a line. -/
def greedyLine (cap : Nat) (goal current : List Int) : List Int :=
  greedyLineAux current cap goal 0

/-! ## Arithmetic of the hint capacity -/

/-- The rational model of `(len as f64 / 2.0).round() as u64` computes the
rounded-up half. -/
lemma numsPerOf_eq (n : Nat) : numsPerOf n = (n + 1) / 2 := by
  unfold numsPerOf
  rcases Nat.even_or_odd n with ⟨k, hk⟩ | ⟨k, hk⟩
  · subst hk
    have h : ((k + k : Nat) : ℚ) / 2 = ((k : ℤ) : ℚ) := by push_cast; ring
    rw [h, round_intCast]
    omega
  · subst hk
    have h : ((2 * k + 1 : Nat) : ℚ) / 2 = ((k : ℤ) : ℚ) + 1 / 2 := by push_cast; ring
    rw [h, round_eq]
    have h2 : ((k : ℤ) : ℚ) + 1 / 2 + 1 / 2 = ((k + 1 : ℤ) : ℚ) := by push_cast; ring
    rw [h2, Int.floor_intCast]
    omega

/-- The ceiling of half a natural number. -/
lemma ceil_half_eq (n : Nat) : ⌈(n : ℚ) / 2⌉₊ = (n + 1) / 2 := by
  rcases Nat.even_or_odd n with ⟨k, hk⟩ | ⟨k, hk⟩
  · subst hk
    have h : ((k + k : Nat) : ℚ) / 2 = (k : ℚ) := by push_cast; ring
    rw [h, Nat.ceil_natCast]
    omega
  · subst hk
    have h : ((2 * k + 1 : Nat) : ℚ) / 2 = (k : ℚ) + 1 / 2 := by push_cast; ring
    rw [h]
    have h2 : ⌈(k : ℚ) + 1 / 2⌉₊ = k + 1 := by
      rw [Nat.ceil_eq_iff (by omega)]
      refine ⟨by push_cast; norm_num, by push_cast; norm_num⟩
    omega

/-! ## List indexing helpers -/

lemma getD_append_length {α : Type} (l₁ l₂ : List α) (d : α) :
    (l₁ ++ l₂).getD l₁.length d = l₂.getD 0 d := by
  induction l₁ with
  | nil => rfl
  | cons a l ih => simpa using ih

lemma set_append_length {α : Type} (l₁ l₂ : List α) (a : α) :
    (l₁ ++ l₂).set l₁.length a = l₁ ++ l₂.set 0 a := by
  induction l₁ with
  | nil => rfl
  | cons b l ih => simpa using ih

lemma getD_map_range {α : Type} (f : Nat → α) (d : α) {k n : Nat} (h : k < n) :
    ((List.range n).map f).getD k d = f k := by
  rw [List.getD_eq_getElem?_getD]
  rw [List.getElem?_eq_getElem (by simpa using h)]
  simp

lemma getD_replicate {α : Type} (a d : α) {k n : Nat} (h : k < n) :
    (List.replicate n a).getD k d = a := by
  rw [List.getD_eq_getElem?_getD, List.getElem?_eq_getElem (by simpa using h)]
  simp

lemma len_le_sum_of_one_le (l : List Nat) (h : ∀ x ∈ l, 1 ≤ x) :
    l.length ≤ l.sum := by
  induction l with
  | nil => simp
  | cons a t ih =>
    have ha := h a (by simp)
    have := ih fun x hx => h x (by simp [hx])
    simp only [List.length_cons, List.sum_cons]
    omega

/-! ## Structure of the run lengths -/

lemma runLengthsAux_cons_one (cur : Nat) (l : List Cell) :
    runLengthsAux cur (1 :: l) = runLengthsAux (cur + 1) l := by
  simp [runLengthsAux]

lemma runLengthsAux_cons_ne {c : Cell} (hc : c ≠ 1) (l : List Cell) :
    runLengthsAux 0 (c :: l) = runLengthsAux 0 l := by
  simp [runLengthsAux, hc]

lemma runLengthsAux_cons_ne_pos {c : Cell} (hc : c ≠ 1) (cur : Nat) (l : List Cell) :
    runLengthsAux (cur + 1) (c :: l) = (cur + 1) :: runLengthsAux 0 l := by
  simp [runLengthsAux, hc]

lemma runLengthsAux_length_pos (l : List Cell) :
    ∀ cur : Nat, 1 ≤ (runLengthsAux (cur + 1) l).length := by
  induction l with
  | nil => intro cur; simp [runLengthsAux]
  | cons c t ih =>
    intro cur
    by_cases hc : c = 1
    · subst hc; rw [runLengthsAux_cons_one]; exact ih (cur + 1)
    · rw [runLengthsAux_cons_ne_pos hc]; simp

lemma runLengthsAux_sum (l : List Cell) :
    ∀ cur : Nat, (runLengthsAux cur l).sum = cur + l.count 1 := by
  induction l with
  | nil =>
    intro cur
    by_cases h : cur = 0 <;> simp [runLengthsAux, h]
  | cons c t ih =>
    intro cur
    by_cases hc : c = 1
    · subst hc
      rw [runLengthsAux_cons_one, ih]
      simp [List.count_cons]
      omega
    · have hcount : (c :: t).count 1 = t.count 1 := by
        simp [List.count_cons, hc]
      rcases Nat.eq_zero_or_pos cur with h0 | hpos
      · subst h0; rw [runLengthsAux_cons_ne hc, ih, hcount]
      · obtain ⟨k, rfl⟩ : ∃ k, cur = k + 1 := ⟨cur - 1, by omega⟩
        rw [runLengthsAux_cons_ne_pos hc]
        simp only [List.sum_cons, ih, hcount]
        omega

lemma runLengthsAux_sum_len (l : List Cell) :
    ∀ cur : Nat,
      (runLengthsAux cur l).sum + (runLengthsAux cur l).length ≤ cur + l.length + 1 := by
  induction l with
  | nil =>
    intro cur
    by_cases h : cur = 0 <;> simp [runLengthsAux, h]
  | cons c t ih =>
    intro cur
    by_cases hc : c = 1
    · subst hc
      rw [runLengthsAux_cons_one]
      have := ih (cur + 1)
      simp only [List.length_cons]
      omega
    · rcases Nat.eq_zero_or_pos cur with h0 | hpos
      · subst h0
        rw [runLengthsAux_cons_ne hc]
        have := ih 0
        simp only [List.length_cons]
        omega
      · obtain ⟨k, rfl⟩ : ∃ k, cur = k + 1 := ⟨cur - 1, by omega⟩
        rw [runLengthsAux_cons_ne_pos hc]
        have := ih 0
        simp only [List.sum_cons, List.length_cons]
        omega

lemma runLengthsAux_one_le (l : List Cell) :
    ∀ cur : Nat, ∀ x ∈ runLengthsAux cur l, 1 ≤ x := by
  induction l with
  | nil =>
    intro cur x hx
    by_cases h : cur = 0 <;> simp [runLengthsAux, h] at hx <;> omega
  | cons c t ih =>
    intro cur x hx
    by_cases hc : c = 1
    · subst hc
      rw [runLengthsAux_cons_one] at hx
      exact ih (cur + 1) x hx
    · rcases Nat.eq_zero_or_pos cur with h0 | hpos
      · subst h0
        rw [runLengthsAux_cons_ne hc] at hx
        exact ih 0 x hx
      · obtain ⟨k, rfl⟩ : ∃ k, cur = k + 1 := ⟨cur - 1, by omega⟩
        rw [runLengthsAux_cons_ne_pos hc] at hx
        rcases List.mem_cons.mp hx with h | h
        · omega
        · exact ih 0 x h

/-- The number of runs never exceeds the hint capacity of the line. -/
lemma runLengths_length_le (line : List Cell) :
    (runLengths line).length ≤ numsPerOf line.length := by
  have hsum := runLengthsAux_sum_len line 0
  have hone := runLengthsAux_one_le line 0
  have hlen := len_le_sum_of_one_le (runLengthsAux 0 line) hone
  rw [numsPerOf_eq]
  unfold runLengths
  omega

lemma lineNumsAux_one (slots : List Int) (h : Nat) (f : Bool) (l : List Cell) :
    lineNumsAux slots h f (1 :: l)
      = lineNumsAux (slots.set h (slots.getD h 0 + 1)) h true l := by
  simp [lineNumsAux]

lemma lineNumsAux_ne_true {c : Cell} (hc : c ≠ 1) (slots : List Int) (h : Nat)
    (l : List Cell) :
    lineNumsAux slots h true (c :: l) = lineNumsAux slots (h + 1) false l := by
  simp [lineNumsAux, hc]

lemma lineNumsAux_ne_false {c : Cell} (hc : c ≠ 1) (slots : List Int) (h : Nat)
    (l : List Cell) :
    lineNumsAux slots h false (c :: l) = lineNumsAux slots h false l := by
  simp [lineNumsAux, hc]

lemma length_lineNumsAux (l : List Cell) :
    ∀ (slots : List Int) (h : Nat) (f : Bool),
      (lineNumsAux slots h f l).length = slots.length := by
  induction l with
  | nil => intro slots h f; rfl
  | cons c t ih =>
    intro slots h f
    by_cases hc : c = 1
    · subst hc
      rw [lineNumsAux_one, ih]
      simp
    · cases f
      · rw [lineNumsAux_ne_false hc, ih]
      · rw [lineNumsAux_ne_true hc, ih]

lemma length_lineNums (cap : Nat) (line : List Cell) :
    (lineNums cap line).length = cap := by
  simp [lineNums, length_lineNumsAux]

lemma lineNumsAux_pad (rest : List Cell) :
    (∀ (done : List Nat) (pad : Nat),
        (runLengthsAux 0 rest).length ≤ pad →
        lineNumsAux ((done.map (Nat.cast : Nat → Int)) ++ List.replicate pad 0)
            done.length false rest
          = ((done ++ runLengthsAux 0 rest).map (Nat.cast : Nat → Int))
            ++ List.replicate (pad - (runLengthsAux 0 rest).length) 0)
    ∧ (∀ (done : List Nat) (cur pad : Nat),
        (runLengthsAux (cur + 1) rest).length ≤ pad + 1 →
        lineNumsAux ((done.map (Nat.cast : Nat → Int))
              ++ ((cur + 1 : Nat) : Int) :: List.replicate pad 0)
            done.length true rest
          = ((done ++ runLengthsAux (cur + 1) rest).map (Nat.cast : Nat → Int))
            ++ List.replicate (pad + 1 - (runLengthsAux (cur + 1) rest).length) 0) := by
  induction rest with
  | nil =>
    constructor
    · intro done pad _
      simp [lineNumsAux, runLengthsAux]
    · intro done cur pad _
      simp [lineNumsAux, runLengthsAux, List.map_append]
  | cons c rest ih =>
    obtain ⟨ihF, ihT⟩ := ih
    constructor
    · intro done pad hlen
      by_cases hc : c = 1
      · subst hc
        rw [runLengthsAux_cons_one] at hlen ⊢
        have hp : 1 ≤ pad := le_trans (runLengthsAux_length_pos rest 0) hlen
        obtain ⟨pad', rfl⟩ : ∃ p, pad = p + 1 := ⟨pad - 1, by omega⟩
        rw [lineNumsAux_one]
        have hd : done.length = (done.map (Nat.cast : Nat → Int)).length := by
          rw [List.length_map]
        have hget : ((done.map (Nat.cast : Nat → Int))
            ++ List.replicate (pad' + 1) 0).getD done.length 0 = 0 := by
          rw [hd, getD_append_length]
          simp [List.replicate_succ]
        rw [hget]
        have hset : ((done.map (Nat.cast : Nat → Int))
              ++ List.replicate (pad' + 1) 0).set done.length (0 + 1)
            = (done.map (Nat.cast : Nat → Int))
              ++ ((0 + 1 : Nat) : Int) :: List.replicate pad' 0 := by
          rw [hd, set_append_length]
          simp [List.replicate_succ]
        rw [hset]
        exact ihT done 0 pad' hlen
      · rw [runLengthsAux_cons_ne hc] at hlen ⊢
        rw [lineNumsAux_ne_false hc]
        exact ihF done pad hlen
    · intro done cur pad hlen
      by_cases hc : c = 1
      · subst hc
        rw [runLengthsAux_cons_one] at hlen ⊢
        rw [lineNumsAux_one]
        have hd : done.length = (done.map (Nat.cast : Nat → Int)).length := by
          rw [List.length_map]
        have hget : ((done.map (Nat.cast : Nat → Int))
            ++ ((cur + 1 : Nat) : Int) :: List.replicate pad 0).getD done.length 0
            = ((cur + 1 : Nat) : Int) := by
          rw [hd, getD_append_length]
          rfl
        rw [hget]
        have hcast : ((cur + 1 : Nat) : Int) + 1 = ((cur + 1 + 1 : Nat) : Int) := by
          push_cast
          ring
        have hset : ((done.map (Nat.cast : Nat → Int))
              ++ ((cur + 1 : Nat) : Int) :: List.replicate pad 0).set done.length
                (((cur + 1 : Nat) : Int) + 1)
            = (done.map (Nat.cast : Nat → Int))
              ++ ((cur + 1 + 1 : Nat) : Int) :: List.replicate pad 0 := by
          rw [hd, set_append_length, List.set_cons_zero, hcast]
        rw [hset]
        exact ihT done (cur + 1) pad hlen
      · rw [runLengthsAux_cons_ne_pos hc] at hlen ⊢
        rw [lineNumsAux_ne_true hc]
        have harr : (done.map (Nat.cast : Nat → Int))
              ++ ((cur + 1 : Nat) : Int) :: List.replicate pad 0
            = ((done ++ [cur + 1]).map (Nat.cast : Nat → Int)) ++ List.replicate pad 0 := by
          simp
        have hlen2 : (runLengthsAux 0 rest).length ≤ pad := by
          simp only [List.length_cons] at hlen
          omega
        have hstep := ihF (done ++ [cur + 1]) pad hlen2
        have hlen3 : done.length + 1 = (done ++ [cur + 1]).length := by simp
        rw [harr, hlen3, hstep]
        simp only [List.length_cons, Nat.succ_sub_succ]
        simp

lemma lineNums_eq_pad {cap : Nat} (line : List Cell)
    (h : (runLengths line).length ≤ cap) :
    lineNums cap line = ((runLengths line).map (Nat.cast : Nat → Int))
      ++ List.replicate (cap - (runLengths line).length) 0 := by
  have hmain := (lineNumsAux_pad line).1 [] cap h
  simpa [lineNums, runLengths] using hmain

/-! ## C9: run lengths fit in the hint capacity -/

/-- C9: for every line whose cells lie in {empty, filled, marked}, the run
lengths found by the hint scan satisfy `sum + (runs - 1) ≤ length`, the number
of runs is at most the hint capacity `numsPerOf length`, and the slot vector
produced by the `get_nums` line loop is exactly the runs (in scan order)
padded with zeros — every write lands inside the fixed hint slots. -/
theorem runLengths_fit (line : List Cell)
    (h : ∀ v ∈ line, v = 0 ∨ v = 1 ∨ v = 2) :
    (runLengths line).sum + ((runLengths line).length - 1) ≤ line.length
    ∧ (runLengths line).length ≤ numsPerOf line.length
    ∧ lineNums (numsPerOf line.length) line
        = ((runLengths line).map (Nat.cast : Nat → Int))
          ++ List.replicate (numsPerOf line.length - (runLengths line).length) 0 := by
  refine ⟨?_, runLengths_length_le line, lineNums_eq_pad line (runLengths_length_le line)⟩
  unfold runLengths
  cases hrl : runLengthsAux 0 line with
  | nil => simp
  | cons x xs =>
    have hsl := runLengthsAux_sum_len line 0
    rw [hrl] at hsl
    simp only [List.sum_cons, List.length_cons] at hsl ⊢
    omega

/-- The line used by the witness of `runLengths_fit`. -/
def wLine : List Cell := [1, 1, 0, 2, 1]

/-- Witness: `runLengths_fit` at the concrete line `[1, 1, 0, 2, 1]`. -/
theorem runLengths_fit_witness :
    (runLengths wLine).sum + ((runLengths wLine).length - 1) ≤ wLine.length
    ∧ (runLengths wLine).length ≤ numsPerOf wLine.length
    ∧ lineNums (numsPerOf wLine.length) wLine
        = ((runLengths wLine).map (Nat.cast : Nat → Int))
          ++ List.replicate (numsPerOf wLine.length - (runLengths wLine).length) 0 :=
  runLengths_fit wLine (by decide)

/-! ## C5: get_nums computes the padded run lengths of every line -/

/-- C5: on every board whose hint capacities are the ones `init_new` computes
from the dimensions, `get_nums` produces, per axis and per line in increasing
index order, exactly the maximal contiguous runs of filled cells in scan
order, one per hint slot from slot 0 on, with all later slots 0. -/
theorem get_nums_eq_runLengths (b : NonogramBoard)
    (h1 : b.nums_per.1 = numsPerOf b.dimensions.2)
    (h2 : b.nums_per.2 = numsPerOf b.dimensions.1) :
    b.get_nums.1 = (List.range b.dimensions.1).map (fun col =>
        ((runLengths (colLine b.data b.dimensions.2 col)).map (Nat.cast : Nat → Int))
        ++ List.replicate
            (b.nums_per.1 - (runLengths (colLine b.data b.dimensions.2 col)).length) 0)
    ∧ b.get_nums.2 = (List.range b.dimensions.2).map (fun row =>
        ((runLengths (rowLine b.data b.dimensions.1 row)).map (Nat.cast : Nat → Int))
        ++ List.replicate
            (b.nums_per.2 - (runLengths (rowLine b.data b.dimensions.1 row)).length) 0) := by
  constructor
  · apply List.map_congr_left
    intro col _
    have hl : (colLine b.data b.dimensions.2 col).length = b.dimensions.2 := by
      simp [colLine]
    apply lineNums_eq_pad
    have hb := runLengths_length_le (colLine b.data b.dimensions.2 col)
    rw [hl] at hb
    rw [h1]
    exact hb
  · apply List.map_congr_left
    intro row _
    have hl : (rowLine b.data b.dimensions.1 row).length = b.dimensions.1 := by
      simp [rowLine]
    apply lineNums_eq_pad
    have hb := runLengths_length_le (rowLine b.data b.dimensions.1 row)
    rw [hl] at hb
    rw [h2]
    exact hb

/-- The board used by the witness of `get_nums_eq_runLengths`. -/
def wBoard5 : NonogramBoard :=
  { dimensions := (2, 2), data := [[1, 0], [1, 1]],
    nums_per := (numsPerOf 2, numsPerOf 2),
    goal_nums := ([[1], [1]], [[2], [1]]),
    current_nums := ([[1], [1]], [[2], [1]]),
    game_end := none, end_game_screen := false, count_black := 3, goal_black := 3 }

/-- Witness: `get_nums_eq_runLengths` at a concrete 2×2 board. -/
theorem get_nums_eq_runLengths_witness :
    wBoard5.get_nums.1 = (List.range wBoard5.dimensions.1).map (fun col =>
        ((runLengths (colLine wBoard5.data wBoard5.dimensions.2 col)).map
            (Nat.cast : Nat → Int))
        ++ List.replicate
            (wBoard5.nums_per.1
              - (runLengths (colLine wBoard5.data wBoard5.dimensions.2 col)).length) 0)
    ∧ wBoard5.get_nums.2 = (List.range wBoard5.dimensions.2).map (fun row =>
        ((runLengths (rowLine wBoard5.data wBoard5.dimensions.1 row)).map
            (Nat.cast : Nat → Int))
        ++ List.replicate
            (wBoard5.nums_per.2
              - (runLengths (rowLine wBoard5.data wBoard5.dimensions.1 row)).length) 0) :=
  get_nums_eq_runLengths wBoard5 rfl rfl

/-! ## C8: the hint capacities are the rounded-up half dimensions -/

/-- C8: on a freshly (re)initialized board with positive dimensions,
`nums_per[0]` is `⌈rows / 2⌉` and `nums_per[1]` is `⌈columns / 2⌉`, although
the source computes them as `(length as f64 / 2.0).round()`. -/
theorem fresh_nums_per_ceil (c r : Nat) (coin : Nat → Nat → Bool)
    (hc : 0 < c) (hr : 0 < r) :
    (freshBoard c r coin).nums_per.1 = ⌈(r : ℚ) / 2⌉₊
    ∧ (freshBoard c r coin).nums_per.2 = ⌈(c : ℚ) / 2⌉₊ := by
  constructor
  · show numsPerOf r = _
    rw [numsPerOf_eq, ceil_half_eq]
  · show numsPerOf c = _
    rw [numsPerOf_eq, ceil_half_eq]

/-- Witness: `fresh_nums_per_ceil` on a fresh 5×5 board. -/
theorem fresh_nums_per_ceil_witness :
    (freshBoard 5 5 (fun _ _ => false)).nums_per.1 = ⌈(5 : ℚ) / 2⌉₊
    ∧ (freshBoard 5 5 (fun _ _ => false)).nums_per.2 = ⌈(5 : ℚ) / 2⌉₊ :=
  fresh_nums_per_ceil 5 5 (fun _ _ => false) (by decide) (by decide)

/-! ## C1: check_win compares hint magnitudes only -/

lemma lineWin_iff (g : List Int) :
    ∀ c : List Int, g.length = c.length →
      (lineWin g c = true ↔
        ∀ j, j < g.length → (g.getD j 0).natAbs = (c.getD j 0).natAbs) := by
  induction g with
  | nil => intro c _; simp [lineWin]
  | cons a g ih =>
    intro c hlen
    cases c with
    | nil => simp at hlen
    | cons b c =>
      have hlen' : g.length = c.length := by simpa using hlen
      have hrest := ih c hlen'
      show ((a, b) :: g.zip c).all (fun p => p.1.natAbs == p.2.natAbs) = true ↔ _
      rw [List.all_cons, Bool.and_eq_true]
      have hshow : ((g.zip c).all fun p => p.1.natAbs == p.2.natAbs) = lineWin g c := rfl
      rw [hshow, hrest]
      constructor
      · rintro ⟨h0, hr⟩ j hj
        cases j with
        | zero => simpa using h0
        | succ j =>
          have : j < g.length := by simpa using hj
          simpa using hr j this
      · intro hall
        refine ⟨by simpa using hall 0 (by simp), fun j hj => ?_⟩
        have := hall (j + 1) (by simpa using hj)
        simpa using this

/-- C1: on a board whose hint tables have `nums_per[axis]` slots per line,
`check_win` is true exactly when, on both axes and for every line, the
absolute values of the goal and current hint entries agree on all
`nums_per[axis]` slots; the grid `data` (and hence any hidden solution)
plays no part in the comparison. -/
theorem check_win_iff (b : NonogramBoard)
    (hg1 : ∀ k, k < b.dimensions.1 → (b.goal_nums.1.getD k []).length = b.nums_per.1)
    (hc1 : ∀ k, k < b.dimensions.1 → (b.current_nums.1.getD k []).length = b.nums_per.1)
    (hg2 : ∀ k, k < b.dimensions.2 → (b.goal_nums.2.getD k []).length = b.nums_per.2)
    (hc2 : ∀ k, k < b.dimensions.2 → (b.current_nums.2.getD k []).length = b.nums_per.2) :
    (b.check_win = true ↔
      ((∀ k, k < b.dimensions.1 → ∀ j, j < b.nums_per.1 →
          ((b.goal_nums.1.getD k []).getD j 0).natAbs
            = ((b.current_nums.1.getD k []).getD j 0).natAbs)
       ∧ (∀ k, k < b.dimensions.2 → ∀ j, j < b.nums_per.2 →
          ((b.goal_nums.2.getD k []).getD j 0).natAbs
            = ((b.current_nums.2.getD k []).getD j 0).natAbs)))
    ∧ (∀ d : Grid, ({ b with data := d } : NonogramBoard).check_win = b.check_win) := by
  constructor
  · unfold NonogramBoard.check_win
    rw [Bool.and_eq_true]
    simp only [List.all_eq_true, List.mem_range]
    constructor
    · rintro ⟨h1, h2⟩
      constructor
      · intro k hk j hj
        have hw := (lineWin_iff _ _ (by rw [hg1 k hk, hc1 k hk])).mp (h1 k hk)
        rw [hg1 k hk] at hw
        exact hw j hj
      · intro k hk j hj
        have hw := (lineWin_iff _ _ (by rw [hg2 k hk, hc2 k hk])).mp (h2 k hk)
        rw [hg2 k hk] at hw
        exact hw j hj
    · rintro ⟨h1, h2⟩
      constructor
      · intro k hk
        apply (lineWin_iff _ _ (by rw [hg1 k hk, hc1 k hk])).mpr
        intro j hj
        rw [hg1 k hk] at hj
        exact h1 k hk j hj
      · intro k hk
        apply (lineWin_iff _ _ (by rw [hg2 k hk, hc2 k hk])).mpr
        intro j hj
        rw [hg2 k hk] at hj
        exact h2 k hk j hj
  · intro d
    rfl

/-- The board used by the witness of `check_win_iff`: a crossed-out goal entry
(`-1`) still counts by magnitude, so this board is in the winning state. -/
def wBoard1 : NonogramBoard :=
  { dimensions := (1, 1), data := [[1]], nums_per := (1, 1),
    goal_nums := ([[-1]], [[1]]), current_nums := ([[1]], [[1]]),
    game_end := none, end_game_screen := false, count_black := 1, goal_black := 1 }

/-- Witness: `check_win_iff` decides the winning state of a concrete board. -/
theorem check_win_iff_witness : wBoard1.check_win = true :=
  ((check_win_iff wBoard1 (by decide) (by decide) (by decide) (by decide)).1).mpr
    (by decide)

/-! ## Projections of `set` -/

lemma set_data_of_ne (b : NonogramBoard) (ind : Nat × Nat) (val : Cell) (now : Nat)
    (h : (b.data.getD ind.1 []).getD ind.2 0 ≠ 0) :
    (b.set ind val now).data = setCell b.data ind 0 := by
  unfold NonogramBoard.set NonogramBoard.update_crossouts
  simp only [List.getD_eq_getElem?_getD] at h
  simp [h]

lemma set_data_of_eq (b : NonogramBoard) (ind : Nat × Nat) (val : Cell) (now : Nat)
    (h : (b.data.getD ind.1 []).getD ind.2 0 = 0) :
    (b.set ind val now).data = setCell b.data ind val := by
  unfold NonogramBoard.set NonogramBoard.update_crossouts
  simp only [List.getD_eq_getElem?_getD] at h
  simp [h]

lemma set_count_black_of_ne (b : NonogramBoard) (ind : Nat × Nat) (val : Cell) (now : Nat)
    (h : (b.data.getD ind.1 []).getD ind.2 0 ≠ 0) :
    (b.set ind val now).count_black
      = if (b.data.getD ind.1 []).getD ind.2 0 = 1 ∧ b.count_black ≠ 0 then
          b.count_black - 1
        else b.count_black := by
  unfold NonogramBoard.set NonogramBoard.update_crossouts
  simp only [List.getD_eq_getElem?_getD] at h ⊢
  simp [h]

lemma set_count_black_of_eq (b : NonogramBoard) (ind : Nat × Nat) (val : Cell) (now : Nat)
    (h : (b.data.getD ind.1 []).getD ind.2 0 = 0) :
    (b.set ind val now).count_black
      = if val = 1 then b.count_black + 1 else b.count_black := by
  unfold NonogramBoard.set NonogramBoard.update_crossouts
  simp only [List.getD_eq_getElem?_getD] at h ⊢
  simp [h]

lemma set_end_game_screen_eq (b : NonogramBoard) (ind : Nat × Nat) (val : Cell)
    (now : Nat) :
    (b.set ind val now).end_game_screen = (b.set ind val now).check_win := by
  unfold NonogramBoard.set NonogramBoard.update_crossouts
  by_cases h : (b.data[ind.1]?.getD [])[ind.2]?.getD 0 = 0 <;> simp [h] <;>
    unfold NonogramBoard.check_win <;> rfl

lemma set_game_end_eq (b : NonogramBoard) (ind : Nat × Nat) (val : Cell) (now : Nat) :
    (b.set ind val now).game_end
      = if (b.set ind val now).check_win then some now else b.game_end := by
  unfold NonogramBoard.set NonogramBoard.update_crossouts
  by_cases h : (b.data[ind.1]?.getD [])[ind.2]?.getD 0 = 0 <;> simp [h] <;> rfl

/-! ## C2: toggle semantics of `set` -/

lemma get_setCell (data : Grid) (ind : Nat × Nat) (v : Cell)
    (h1 : ind.1 < data.length) (h2 : ind.2 < (data.getD ind.1 []).length) :
    ((setCell data ind v).getD ind.1 []).getD ind.2 0 = v := by
  unfold setCell
  have hl1 : ind.1 < (data.set ind.1 ((data.getD ind.1 []).set ind.2 v)).length := by
    simpa using h1
  rw [List.getD_eq_getElem _ _ hl1, List.getElem_set_self (by simpa using h1)]
  have hl2 : ind.2 < ((data.getD ind.1 []).set ind.2 v).length := by simpa using h2
  rw [List.getD_eq_getElem _ _ hl2, List.getElem_set_self (by simpa using h2)]

/-- C2: for every in-bounds cell and every requested value in {filled, marked},
`set` clears a non-empty cell to empty regardless of the requested value, and
stores the requested value into an empty cell. -/
theorem set_toggle (b : NonogramBoard) (ind : Nat × Nat) (val : Cell) (now : Nat)
    (hval : val = 1 ∨ val = 2)
    (h1 : ind.1 < b.data.length)
    (h2 : ind.2 < (b.data.getD ind.1 []).length) :
    (b.get ind ≠ 0 → (b.set ind val now).get ind = 0)
    ∧ (b.get ind = 0 → (b.set ind val now).get ind = val) := by
  constructor
  · intro hne
    have hd := set_data_of_ne b ind val now hne
    show ((b.set ind val now).data.getD ind.1 []).getD ind.2 0 = 0
    rw [hd, get_setCell b.data ind 0 h1 h2]
  · intro heq
    have hd := set_data_of_eq b ind val now heq
    show ((b.set ind val now).data.getD ind.1 []).getD ind.2 0 = val
    rw [hd, get_setCell b.data ind val h1 h2]

/-- Witness: `set_toggle` on a concrete board whose cell `(0,0)` is filled:
requesting a mark clears it. -/
theorem set_toggle_witness :
    (wBoard1.get (0, 0) ≠ 0 → (wBoard1.set (0, 0) 2 3).get (0, 0) = 0)
    ∧ (wBoard1.get (0, 0) = 0 → (wBoard1.set (0, 0) 2 3).get (0, 0) = 2) :=
  set_toggle wBoard1 (0, 0) 2 3 (by decide) (by decide) (by decide)

/-! ## C4: the won state is not terminal in place -/

/-- A 1×1 board whose goal is the filled cell, after the winning move at
time 5. -/
def wonBoard : NonogramBoard := (freshBoard 1 1 fun _ _ => true).set (0, 0) 1 5

/-- A 1×2 board whose goal is empty (so every position matches the hints),
after marking cell `(0,0)` at time 5. -/
def markBoard : NonogramBoard := (freshBoard 1 2 fun _ _ => false).set (0, 0) 2 5

/-- Counterexample to C4: `wonBoard` is in the won state, yet a further `set`
returns `end_game_screen` to false; `markBoard` is in the won state with
`game_end = some 5`, yet a further `set` (marking the other cell, which keeps
the hint signature matching) overwrites `game_end` with the new time 9. -/
theorem won_not_terminal :
    wonBoard.end_game_screen = true
    ∧ (wonBoard.set (0, 0) 1 7).end_game_screen = false
    ∧ markBoard.end_game_screen = true
    ∧ markBoard.game_end = some 5
    ∧ (markBoard.set (0, 1) 2 9).game_end = some 9 := by
  refine ⟨?_, ?_, ?_, ?_, ?_⟩ <;>
    · simp only [wonBoard, markBoard, freshBoard, numsPerOf_eq]
      decide

/-- C4 amended: `set` unconditionally recomputes
`end_game_screen = check_win()`, so a `set` that breaks the hint match while
won returns the board to the playing state; and `game_end` is restamped with
the current time on every `set` that ends in a winning state, while a `set`
ending in a non-winning state leaves `game_end` unchanged. -/
theorem set_recomputes_win (b : NonogramBoard) (ind : Nat × Nat) (val : Cell)
    (now : Nat) :
    (b.set ind val now).end_game_screen = (b.set ind val now).check_win
    ∧ ((b.set ind val now).check_win = true → (b.set ind val now).game_end = some now)
    ∧ ((b.set ind val now).check_win = false → (b.set ind val now).game_end = b.game_end) := by
  refine ⟨set_end_game_screen_eq b ind val now, ?_, ?_⟩
  · intro hw
    rw [set_game_end_eq b ind val now, hw]
    rfl
  · intro hw
    rw [set_game_end_eq b ind val now, hw]
    rfl

/-! ## C6 and C7: the crossout matching -/

lemma innerScan_step (current : List Int) (mc : Bool) (g : Int) (mi ci fuel : Nat) :
    innerScan current mc g mi ci (fuel + 1)
      = if (((g.natAbs : Int) == current.getD ci 0) && mc) = true
        then (if g > 0 then -g else g, ci + 1)
        else innerScan current mc (g.natAbs : Int) mi (ci + 1) fuel := rfl

lemma outerScan_step (current : List Int) (mc : Bool) (cap fuel : Nat)
    (goal : List Int) (gi ci mi : Nat) :
    outerScan current mc cap (fuel + 1) goal gi ci mi
      = if goal.getD gi 0 ≠ 0
        then outerScan current mc cap fuel
            (goal.set gi (innerScan current mc (goal.getD gi 0) mi ci (cap - ci)).1)
            (gi + 1) (innerScan current mc (goal.getD gi 0) mi ci (cap - ci)).2
            (innerScan current mc (goal.getD gi 0) mi ci (cap - ci)).2
        else outerScan current mc cap fuel goal (gi + 1) mi mi := rfl

lemma innerScan_false (current : List Int) :
    ∀ (fuel : Nat) (g : Int) (mi ci : Nat),
      innerScan current false g mi ci fuel
        = ((if fuel = 0 then g else (g.natAbs : Int)), mi) := by
  intro fuel
  induction fuel with
  | zero => intro g mi ci; rfl
  | succ f ih =>
    intro g mi ci
    rw [innerScan_step, if_neg (by simp), ih]
    by_cases hf : f = 0 <;> simp [hf]

lemma firstMatch_some_bounds {current : List Int} {cap s : Nat} {t : Int} {j : Nat}
    (h : firstMatch current cap s t = some j) : s ≤ j ∧ j < cap := by
  unfold firstMatch at h
  have hmem := List.mem_of_find?_eq_some h
  have := List.mem_range'_1.mp hmem
  omega

lemma innerScan_true (current : List Int) (cap : Nat) :
    ∀ (fuel s : Nat) (g : Int) (mi : Nat), g ≠ 0 → s + fuel = cap →
      innerScan current true g mi s fuel
        = (match firstMatch current cap s (g.natAbs : Int) with
           | some j => (-(g.natAbs : Int), j + 1)
           | none => ((if fuel = 0 then g else (g.natAbs : Int)), mi)) := by
  intro fuel
  induction fuel with
  | zero =>
    intro s g mi hg hs
    have h0 : cap - s = 0 := by omega
    simp [innerScan, firstMatch, h0]
  | succ f ih =>
    intro s g mi hg hs
    have hrange : List.range' s (cap - s) = s :: List.range' (s + 1) (cap - (s + 1)) := by
      have h1 : cap - s = (cap - (s + 1)) + 1 := by omega
      rw [h1, List.range'_succ]
    by_cases hmatch : current.getD s 0 = (g.natAbs : Int)
    · rw [innerScan_step, if_pos (by rw [hmatch]; simp)]
      have hfm : firstMatch current cap s (g.natAbs : Int) = some s := by
        unfold firstMatch
        rw [hrange, List.find?_cons_of_pos _ (by rw [hmatch]; simp)]
      rw [hfm]
      have hval : (if g > 0 then -g else g) = -(g.natAbs : Int) := by
        split <;> omega
      rw [hval]
    · rw [innerScan_step,
        if_neg (by simp only [Bool.and_true, beq_iff_eq]; exact fun h => hmatch h.symm)]
      have hg' : (g.natAbs : Int) ≠ 0 := by simpa using hg
      rw [ih (s + 1) (g.natAbs : Int) mi hg' (by omega)]
      have hfm : firstMatch current cap s (g.natAbs : Int)
          = firstMatch current cap (s + 1) (g.natAbs : Int) := by
        unfold firstMatch
        rw [hrange, List.find?_cons_of_neg _ (by simp only [beq_iff_eq]; exact hmatch)]
      rw [show ((g.natAbs : Int).natAbs : Int) = (g.natAbs : Int) by simp, ← hfm]
      cases hc : firstMatch current cap s (g.natAbs : Int) with
      | some j => rfl
      | none =>
        by_cases hf : f = 0 <;> simp [hf]

lemma outerScan_true (current : List Int) (cap : Nat) :
    ∀ (rest done : List Int) (s : Nat),
      done.length + rest.length = cap → s ≤ cap →
      outerScan current true cap rest.length (done ++ rest) done.length s s
        = done ++ greedyLineAux current cap rest s := by
  intro rest
  induction rest with
  | nil =>
    intro done s _ _
    simp [outerScan, greedyLineAux]
  | cons g rest ih =>
    intro done s hlen hs
    have hget : (done ++ g :: rest).getD done.length 0 = g := by
      rw [getD_append_length]
      rfl
    show outerScan current true cap (rest.length + 1) _ _ _ _ = _
    rw [outerScan_step]
    by_cases hg : g = 0
    · subst hg
      rw [if_neg (by rw [hget]; simp)]
      have harr : done ++ (0 : Int) :: rest = (done ++ [(0 : Int)]) ++ rest := by simp
      have hl2 : done.length + 1 = (done ++ [(0 : Int)]).length := by simp
      rw [harr, hl2, ih (done ++ [(0 : Int)]) s (by simp at hlen ⊢; omega) hs]
      simp [greedyLineAux]
    · rw [if_pos (by rw [hget]; exact hg), hget,
        innerScan_true current cap (cap - s) s g s hg (by omega)]
      cases hfm : firstMatch current cap s (g.natAbs : Int) with
      | some j =>
        obtain ⟨hsj, hjc⟩ := firstMatch_some_bounds hfm
        have hset : (done ++ g :: rest).set done.length (-(g.natAbs : Int))
            = (done ++ [-(g.natAbs : Int)]) ++ rest := by
          rw [set_append_length]
          simp
        rw [hset]
        have hl2 : done.length + 1 = (done ++ [-(g.natAbs : Int)]).length := by simp
        rw [hl2, ih (done ++ [-(g.natAbs : Int)]) (j + 1) (by simp at hlen ⊢; omega)
          (by omega)]
        have hgreedy : greedyLineAux current cap (g :: rest) s
            = -(g.natAbs : Int) :: greedyLineAux current cap rest (j + 1) := by
          simp only [greedyLineAux]
          rw [if_neg hg, hfm]
        rw [hgreedy]
        simp
      | none =>
        have hcur : (if cap - s = 0 then g else (g.natAbs : Int))
            = (if s < cap then (g.natAbs : Int) else g) := by
          rcases Nat.lt_or_ge s cap with h | h
          · rw [if_neg (by omega), if_pos h]
          · rw [if_pos (by omega), if_neg (by omega)]
        have hset : (done ++ g :: rest).set done.length
              (if cap - s = 0 then g else (g.natAbs : Int))
            = (done ++ [if s < cap then (g.natAbs : Int) else g]) ++ rest := by
          rw [set_append_length, hcur]
          simp
        rw [hset]
        have hl2 : done.length + 1
            = (done ++ [if s < cap then (g.natAbs : Int) else g]).length := by simp
        rw [hl2, ih (done ++ [if s < cap then (g.natAbs : Int) else g]) s
          (by simp at hlen ⊢; omega) hs]
        have hgreedy : greedyLineAux current cap (g :: rest) s
            = (if s < cap then (g.natAbs : Int) else g)
              :: greedyLineAux current cap rest s := by
          simp only [greedyLineAux]
          rw [if_neg hg, hfm]
        rw [hgreedy]
        simp

lemma outerScan_false (current : List Int) (cap : Nat) (hcap : 0 < cap) :
    ∀ (rest done : List Int),
      outerScan current false cap rest.length (done ++ rest) done.length 0 0
        = done ++ rest.map (fun g => (g.natAbs : Int)) := by
  intro rest
  induction rest with
  | nil =>
    intro done
    simp [outerScan]
  | cons g rest ih =>
    intro done
    have hget : (done ++ g :: rest).getD done.length 0 = g := by
      rw [getD_append_length]
      rfl
    show outerScan current false cap (rest.length + 1) _ _ _ _ = _
    rw [outerScan_step]
    by_cases hg : g = 0
    · subst hg
      rw [if_neg (by rw [hget]; simp)]
      have harr : done ++ (0 : Int) :: rest = (done ++ [(0 : Int)]) ++ rest := by simp
      have hl2 : done.length + 1 = (done ++ [(0 : Int)]).length := by simp
      rw [harr, hl2, ih (done ++ [(0 : Int)])]
      simp
    · rw [if_pos (by rw [hget]; exact hg), hget, innerScan_false current (cap - 0) g 0 0,
        if_neg (by omega)]
      have hset : (done ++ g :: rest).set done.length (g.natAbs : Int)
          = (done ++ [(g.natAbs : Int)]) ++ rest := by
        rw [set_append_length]
        simp
      rw [hset]
      have hl2 : done.length + 1 = (done ++ [(g.natAbs : Int)]).length := by simp
      rw [hl2, ih (done ++ [(g.natAbs : Int)])]
      simp

lemma crossoutLine_eq_greedy (cap : Nat) (goal current : List Int)
    (hlen : goal.length = cap)
    (hmc : (current.filter fun n => n != 0).length
        ≤ (goal.filter fun n => n != 0).length) :
    crossoutLine cap goal current = greedyLine cap goal current := by
  subst hlen
  unfold crossoutLine greedyLine
  rw [decide_eq_true hmc]
  simpa using outerScan_true current goal.length goal [] 0 (by simp) (by omega)

/-- C6: whenever matching is attempted for a line (its count of non-zero
current entries is at most its count of non-zero goal entries), the crossout
pass computes exactly the greedy, order-preserving, one-to-one matching
`greedyLine` described by the spec; `update_crossouts` applies this line pass
to every line of both axes; and in particular a line with goal hints `[2, 1]`
whose current state is a single run of length 2 ends with slot 0 crossed out
(negative) and slot 1 positive. -/
theorem update_crossouts_greedy :
    (∀ (cap : Nat) (goal current : List Int),
        goal.length = cap →
        (current.filter fun n => n != 0).length
            ≤ (goal.filter fun n => n != 0).length →
        crossoutLine cap goal current = greedyLine cap goal current)
    ∧ (∀ b : NonogramBoard, b.update_crossouts.goal_nums
        = ((List.range b.dimensions.1).map fun k =>
              crossoutLine b.nums_per.1 (b.goal_nums.1.getD k [])
                (b.current_nums.1.getD k []),
           (List.range b.dimensions.2).map fun k =>
              crossoutLine b.nums_per.2 (b.goal_nums.2.getD k [])
                (b.current_nums.2.getD k [])))
    ∧ crossoutLine 2 [2, 1] [2, 0] = [-2, 1] :=
  ⟨crossoutLine_eq_greedy, fun _ => rfl, by decide⟩

/-- C7: on a line with strictly more non-zero current-hint entries than
non-zero goal-hint entries, the crossout pass crosses nothing out and
normalizes every goal entry to its absolute value. -/
theorem crossouts_withheld (cap : Nat) (goal current : List Int)
    (hlen : goal.length = cap)
    (hmc : (goal.filter fun n => n != 0).length
        < (current.filter fun n => n != 0).length) :
    crossoutLine cap goal current = goal.map fun g => (g.natAbs : Int) := by
  subst hlen
  unfold crossoutLine
  rw [decide_eq_false (by omega)]
  cases hgoal : goal with
  | nil => rfl
  | cons g rest =>
    have hcap : 0 < goal.length := by rw [hgoal]; simp
    have hmain := outerScan_false current goal.length hcap goal []
    rw [hgoal] at hmain
    simpa using hmain

/-- Witness: `crossouts_withheld` on the line with goal hints `[-2, 0]`
(slot 0 stale-crossed) and two current runs `[1, 1]`: the stale crossout is
cleared back to `[2, 0]`. -/
theorem crossouts_withheld_witness :
    crossoutLine 2 [-2, 0] [1, 1]
      = ([-2, 0] : List Int).map (fun g => (g.natAbs : Int)) :=
  crossouts_withheld 2 [-2, 0] [1, 1] (by decide) (by decide)

/-! ## C3: count_black tracks the filled cells -/

lemma count_set_one (l : List Cell) :
    ∀ (j : Nat) (v : Cell), j < l.length →
      (l.set j v).count 1 + (if l.getD j 0 = 1 then 1 else 0)
        = l.count 1 + (if v = 1 then 1 else 0) := by
  induction l with
  | nil => intro j v hj; simp at hj
  | cons a t ih =>
    intro j v hj
    cases j with
    | zero =>
      simp only [List.set_cons_zero, List.count_cons, List.getD_cons_zero, beq_iff_eq]
      split_ifs <;> omega
    | succ j =>
      have ihj := ih j v (by simpa using hj)
      simp only [List.set_cons_succ, List.count_cons, List.getD_cons_succ, beq_iff_eq]
      split_ifs at ihj ⊢ <;> omega

lemma countFilled_setCell (data : Grid) :
    ∀ (i j : Nat) (v : Cell), i < data.length → j < (data.getD i []).length →
      countFilled (setCell data (i, j) v) + (if (data.getD i []).getD j 0 = 1 then 1 else 0)
        = countFilled data + (if v = 1 then 1 else 0) := by
  induction data with
  | nil => intro i j v hi _; simp at hi
  | cons col rest ih =>
    intro i j v hi hj
    cases i with
    | zero =>
      show countFilled ((col.set j v) :: rest) + _ = _
      simp only [countFilled, List.map_cons, List.sum_cons, List.getD_cons_zero] at *
      have := count_set_one col j v hj
      omega
    | succ i =>
      show countFilled (col :: setCell rest (i, j) v) + _ = _
      simp only [countFilled, List.map_cons, List.sum_cons, List.getD_cons_succ] at *
      have := ih i j v (by simpa using hi) hj
      omega

lemma one_le_countFilled (data : Grid) (i j : Nat) (hi : i < data.length)
    (h1 : (data.getD i []).getD j 0 = 1) : 1 ≤ countFilled data := by
  have hj : j < (data.getD i []).length := by
    by_contra hge
    rw [List.getD_eq_default _ _ (by omega)] at h1
    exact absurd h1 (by decide)
  have hmem1 : (1 : Cell) ∈ data.getD i [] := by
    rw [← h1, List.getD_eq_getElem _ _ hj]
    exact List.getElem_mem hj
  have hcount : 0 < (data.getD i []).count 1 := List.count_pos_iff.mpr hmem1
  have hmemc : (data.getD i []).count 1 ∈ data.map (fun colData => colData.count 1) := by
    rw [List.getD_eq_getElem _ _ hi]
    exact List.mem_map_of_mem _ (List.getElem_mem hi)
  have := List.single_le_sum (fun (x : Nat) _ => Nat.zero_le x) _ hmemc
  unfold countFilled
  omega

lemma set_preserves_inv {c r : Nat} {b : NonogramBoard}
    (hlen : b.data.length = c) (hcols : ∀ col ∈ b.data, col.length = r)
    (hcount : b.count_black = countFilled b.data)
    {ind : Nat × Nat} (hi : ind.1 < c) (hj : ind.2 < r) (val : Cell) (now : Nat) :
    (b.set ind val now).data.length = c
    ∧ (∀ col ∈ (b.set ind val now).data, col.length = r)
    ∧ (b.set ind val now).count_black = countFilled (b.set ind val now).data := by
  have hi' : ind.1 < b.data.length := by omega
  have hcol : (b.data.getD ind.1 []) ∈ b.data := by
    rw [List.getD_eq_getElem _ _ hi']
    exact List.getElem_mem hi'
  have hj' : ind.2 < (b.data.getD ind.1 []).length := by
    rw [hcols _ hcol]
    exact hj
  have hsetlen : ∀ v : Cell, (setCell b.data ind v).length = c := by
    intro v
    unfold setCell
    simp [hlen]
  have hsetcols : ∀ v : Cell, ∀ col ∈ setCell b.data ind v, col.length = r := by
    intro v col hmem
    unfold setCell at hmem
    rcases List.mem_or_eq_of_mem_set hmem with hin | heq
    · exact hcols _ hin
    · rw [heq, List.length_set]
      exact hcols _ hcol
  by_cases hcell : (b.data.getD ind.1 []).getD ind.2 0 = 0
  · have hd := set_data_of_eq b ind val now hcell
    have hc := set_count_black_of_eq b ind val now hcell
    refine ⟨by rw [hd]; exact hsetlen val, by rw [hd]; exact hsetcols val, ?_⟩
    rw [hd, hc]
    have hcf : countFilled (setCell b.data ind val)
          + (if (b.data.getD ind.1 []).getD ind.2 0 = 1 then 1 else 0)
        = countFilled b.data + (if val = 1 then 1 else 0) :=
      countFilled_setCell b.data ind.1 ind.2 val hi' hj'
    rw [hcell] at hcf
    simp only [if_neg (by decide : ¬(0 : Cell) = 1)] at hcf
    by_cases hval : val = 1
    · rw [if_pos hval] at hcf ⊢
      omega
    · rw [if_neg hval] at hcf ⊢
      omega
  · have hd := set_data_of_ne b ind val now hcell
    have hc := set_count_black_of_ne b ind val now hcell
    refine ⟨by rw [hd]; exact hsetlen 0, by rw [hd]; exact hsetcols 0, ?_⟩
    rw [hd, hc]
    have hcf : countFilled (setCell b.data ind 0)
          + (if (b.data.getD ind.1 []).getD ind.2 0 = 1 then 1 else 0)
        = countFilled b.data + (if (0 : Cell) = 1 then 1 else 0) :=
      countFilled_setCell b.data ind.1 ind.2 0 hi' hj'
    simp only [if_neg (by decide : ¬(0 : Cell) = 1)] at hcf
    by_cases hone : (b.data.getD ind.1 []).getD ind.2 0 = 1
    · have hpos := one_le_countFilled b.data ind.1 ind.2 hi' hone
      rw [if_pos hone] at hcf
      rw [if_pos ⟨hone, by omega⟩]
      omega
    · rw [if_neg hone] at hcf
      rw [if_neg (by exact fun hand => hone hand.1)]
      omega

lemma applyOps_preserves_inv {c r : Nat} :
    ∀ (ops : List ((Nat × Nat) × Cell × Nat)) (b : NonogramBoard),
      b.data.length = c → (∀ col ∈ b.data, col.length = r) →
      b.count_black = countFilled b.data →
      (∀ op ∈ ops, op.1.1 < c ∧ op.1.2 < r) →
      (applyOps b ops).count_black = countFilled (applyOps b ops).data := by
  intro ops
  induction ops with
  | nil => intro b _ _ hcount _; exact hcount
  | cons op rest ih =>
    intro b hlen hcols hcount hops
    show (applyOps (b.set op.1 op.2.1 op.2.2) rest).count_black = _
    obtain ⟨h1, h2, h3⟩ := set_preserves_inv hlen hcols hcount
      (hops op (by simp)).1 (hops op (by simp)).2 op.2.1 op.2.2
    exact ih _ h1 h2 h3 (fun o ho => hops o (by simp [ho]))

lemma mapIdx_replicate {α β : Type} (x : α) :
    ∀ (n : Nat) (f : Nat → α → β),
      (List.replicate n x).mapIdx f = (List.range n).map (fun i => f i x) := by
  intro n
  induction n with
  | zero => intro f; rfl
  | succ n ih =>
    intro f
    rw [List.replicate_succ, List.mapIdx_cons, List.range_succ_eq_map, List.map_cons,
      ih fun i => f (i + 1)]
    simp [List.map_map, Function.comp]

lemma map_const_replicate {α β : Type} (b : β) :
    ∀ (l : List α), (l.map fun _ => b) = List.replicate l.length b := by
  intro l
  induction l with
  | nil => rfl
  | cons a t ih => simp [List.replicate_succ, ih]

lemma freshBoard_data (c r : Nat) (coin : Nat → Nat → Bool) :
    (freshBoard c r coin).data = List.replicate c (List.replicate r (0 : Cell)) := by
  show wipeData (set_goal (List.replicate c (List.replicate r 0)) coin) = _
  unfold wipeData set_goal
  rw [mapIdx_replicate, List.map_map]
  have hinner : ∀ x ∈ List.range c,
      ((fun colData => colData.map fun _ => (0 : Cell))
        ∘ fun i2 => (List.replicate r (0 : Cell)).mapIdx fun row v =>
            if coin i2 row then 1 else v) x
      = List.replicate r (0 : Cell) := by
    intro x _
    simp only [Function.comp]
    rw [mapIdx_replicate, map_const_replicate, List.length_map, List.length_range]
  rw [List.map_congr_left hinner, map_const_replicate, List.length_range]

lemma countFilled_fresh (c r : Nat) (coin : Nat → Nat → Bool) :
    countFilled (freshBoard c r coin).data = 0 := by
  rw [freshBoard_data]
  unfold countFilled
  simp [List.count_replicate]

/-- C3: starting from a freshly generated board, after any sequence of `set`
calls with in-bounds indices and requested values filled or marked,
`count_black` equals the number of filled cells of the grid. -/
theorem count_black_law (c r : Nat) (coin : Nat → Nat → Bool)
    (ops : List ((Nat × Nat) × Cell × Nat))
    (hops : ∀ op ∈ ops, op.1.1 < c ∧ op.1.2 < r ∧ (op.2.1 = 1 ∨ op.2.1 = 2)) :
    (applyOps (freshBoard c r coin) ops).count_black
      = countFilled (applyOps (freshBoard c r coin) ops).data := by
  have h1 : (freshBoard c r coin).data.length = c := by
    rw [freshBoard_data]
    simp
  have h2 : ∀ col ∈ (freshBoard c r coin).data, col.length = r := by
    intro col hcol
    rw [freshBoard_data] at hcol
    rw [List.eq_of_mem_replicate hcol]
    simp
  have h3 : (freshBoard c r coin).count_black = countFilled (freshBoard c r coin).data := by
    rw [countFilled_fresh]
    rfl
  exact applyOps_preserves_inv ops (freshBoard c r coin) h1 h2 h3
    (fun op hop => ⟨(hops op hop).1, (hops op hop).2.1⟩)

/-- Witness: `count_black_law` on a fresh 2×2 board after three concrete
`set` calls (fill, mark, unfill). -/
theorem count_black_law_witness :
    (applyOps (freshBoard 2 2 fun i j => i == j)
        [((0, 0), 1, 3), ((1, 1), 2, 4), ((0, 0), 1, 6)]).count_black
      = countFilled (applyOps (freshBoard 2 2 fun i j => i == j)
        [((0, 0), 1, 3), ((1, 1), 2, 4), ((0, 0), 1, 6)]).data :=
  count_black_law 2 2 (fun i j => i == j)
    [((0, 0), 1, 3), ((1, 1), 2, 4), ((0, 0), 1, 6)] (by decide)

/-! ## C10: a fresh board wins immediately iff the generated solution is empty -/

lemma freshBoard_dimensions (c r : Nat) (coin : Nat → Nat → Bool) :
    (freshBoard c r coin).dimensions = (c, r) := rfl

lemma freshBoard_goal_nums (c r : Nat) (coin : Nat → Nat → Bool) :
    (freshBoard c r coin).goal_nums
      = ((List.range c).map fun col =>
            lineNums (numsPerOf r)
              (colLine (set_goal (List.replicate c (List.replicate r 0)) coin) r col),
         (List.range r).map fun row =>
            lineNums (numsPerOf c)
              (rowLine (set_goal (List.replicate c (List.replicate r 0)) coin) c row)) := rfl

lemma freshBoard_current_nums (c r : Nat) (coin : Nat → Nat → Bool) :
    (freshBoard c r coin).current_nums
      = (List.replicate c (List.replicate (numsPerOf r) 0),
         List.replicate r (List.replicate (numsPerOf c) 0)) := rfl

lemma lineWin_zeros (g : List Int) (n : Nat) (hlen : g.length = n) :
    lineWin g (List.replicate n 0) = true ↔ ∀ x ∈ g, x = 0 := by
  rw [lineWin_iff g _ (by simp [hlen])]
  constructor
  · intro h x hx
    obtain ⟨j, hj, rfl⟩ := List.mem_iff_getElem.mp hx
    have hj2 := h j hj
    rw [getD_replicate (0 : Int) 0 (by omega), List.getD_eq_getElem _ _ hj] at hj2
    simpa using hj2
  · intro h j hj
    rw [getD_replicate (0 : Int) 0 (by omega), List.getD_eq_getElem _ _ hj]
    simp [h _ (List.getElem_mem hj)]

lemma lineNums_all_zero_iff (line : List Cell) :
    (∀ x ∈ lineNums (numsPerOf line.length) line, x = 0) ↔ line.count 1 = 0 := by
  rw [lineNums_eq_pad line (runLengths_length_le line)]
  have hsum : (runLengths line).sum = line.count 1 := by
    unfold runLengths
    rw [runLengthsAux_sum line 0]
    omega
  constructor
  · intro h
    by_contra hne
    have hsum_pos : 0 < (runLengths line).sum := by omega
    cases hrl : runLengths line with
    | nil => rw [hrl] at hsum_pos; simp at hsum_pos
    | cons u us =>
      have hu0 : ((u : Nat) : Int) = 0 := by
        apply h
        rw [hrl]
        simp
      have hu1 : 1 ≤ u := runLengthsAux_one_le line 0 u
        (by unfold runLengths at hrl; rw [hrl]; simp)
      omega
  · intro hcount x hx
    have hrl : runLengths line = [] := by
      cases hrl : runLengths line with
      | nil => rfl
      | cons u us =>
        have hu1 : 1 ≤ u := runLengthsAux_one_le line 0 u
          (by unfold runLengths at hrl; rw [hrl]; simp)
        rw [hrl] at hsum
        simp only [List.sum_cons] at hsum
        omega
    rw [hrl] at hx
    simp only [List.map_nil, List.nil_append] at hx
    exact List.eq_of_mem_replicate hx

lemma set_goal_fresh (c r : Nat) (coin : Nat → Nat → Bool) :
    set_goal (List.replicate c (List.replicate r 0)) coin
      = (List.range c).map fun col => (List.range r).map fun row =>
          if coin col row then (1 : Cell) else 0 := by
  unfold set_goal
  rw [mapIdx_replicate]
  apply List.map_congr_left
  intro i _
  rw [mapIdx_replicate]

lemma colLine_fresh (c r : Nat) (coin : Nat → Nat → Bool) {col : Nat} (hcol : col < c) :
    colLine (set_goal (List.replicate c (List.replicate r 0)) coin) r col
      = (List.range r).map fun row => if coin col row then (1 : Cell) else 0 := by
  unfold colLine
  rw [set_goal_fresh]
  apply List.map_congr_left
  intro row hrow
  rw [getD_map_range _ _ hcol, getD_map_range _ _ (List.mem_range.mp hrow)]

lemma rowLine_fresh (c r : Nat) (coin : Nat → Nat → Bool) {row : Nat} (hrow : row < r) :
    rowLine (set_goal (List.replicate c (List.replicate r 0)) coin) c row
      = (List.range c).map fun col => if coin col row then (1 : Cell) else 0 := by
  unfold rowLine
  rw [set_goal_fresh]
  apply List.map_congr_left
  intro col hcol
  rw [getD_map_range _ _ (List.mem_range.mp hcol), getD_map_range _ _ hrow]

lemma count_coin_line (p : Nat → Bool) (n : Nat) :
    ((List.range n).map fun i => if p i then (1 : Cell) else 0).count 1 = 0
      ↔ ∀ i, i < n → p i = false := by
  rw [List.count_eq_zero]
  constructor
  · intro h i hi
    by_contra hne
    have htrue : p i = true := by
      cases hp : p i
      · exact absurd hp hne
      · rfl
    exact h (List.mem_map.mpr ⟨i, by simp [hi], by simp [htrue]⟩)
  · intro h hmem
    obtain ⟨i, hi, heq⟩ := List.mem_map.mp hmem
    rw [h i (by simpa using hi)] at heq
    simp at heq

/-- C10: on a freshly generated board (fresh-generation path, before any
`set`), `check_win` already returns true exactly when the Bernoulli draws
produced no filled cell in the hidden solution: `current_nums` is all zeros,
so a degenerate all-empty solution makes the empty starting grid a winning
state. -/
theorem fresh_check_win_iff (c r : Nat) (coin : Nat → Nat → Bool) :
    (freshBoard c r coin).check_win = true
      ↔ ∀ col, col < c → ∀ row, row < r → coin col row = false := by
  unfold NonogramBoard.check_win
  rw [freshBoard_goal_nums, freshBoard_current_nums, freshBoard_dimensions]
  simp only [Bool.and_eq_true, List.all_eq_true, List.mem_range]
  constructor
  · rintro ⟨h1, _⟩ col hcol row hrow
    have hline := h1 col hcol
    rw [getD_map_range _ _ hcol, getD_replicate _ _ hcol] at hline
    set sol := set_goal (List.replicate c (List.replicate r 0)) coin with hsol
    have hlen : (colLine sol r col).length = r := by simp [colLine]
    have hzero := (lineWin_zeros _ _ (length_lineNums _ _)).mp hline
    rw [show numsPerOf r = numsPerOf (colLine sol r col).length by rw [hlen]] at hzero
    have hcount := (lineNums_all_zero_iff (colLine sol r col)).mp hzero
    rw [hsol, colLine_fresh c r coin hcol] at hcount
    exact (count_coin_line (fun row => coin col row) r).mp hcount row hrow
  · intro hcoin
    set sol := set_goal (List.replicate c (List.replicate r 0)) coin with hsol
    constructor
    · intro col hcol
      rw [getD_map_range _ _ hcol, getD_replicate _ _ hcol]
      have hlen : (colLine sol r col).length = r := by simp [colLine]
      apply (lineWin_zeros _ _ (length_lineNums _ _)).mpr
      rw [show numsPerOf r = numsPerOf (colLine sol r col).length by rw [hlen]]
      apply (lineNums_all_zero_iff (colLine sol r col)).mpr
      rw [hsol, colLine_fresh c r coin hcol]
      exact (count_coin_line (fun row => coin col row) r).mpr
        (fun row hrow => hcoin col hcol row hrow)
    · intro row hrow
      rw [getD_map_range _ _ hrow, getD_replicate _ _ hrow]
      have hlen : (rowLine sol c row).length = c := by simp [rowLine]
      apply (lineWin_zeros _ _ (length_lineNums _ _)).mpr
      rw [show numsPerOf c = numsPerOf (rowLine sol c row).length by rw [hlen]]
      apply (lineNums_all_zero_iff (rowLine sol c row)).mpr
      rw [hsol, rowLine_fresh c r coin hrow]
      exact (count_coin_line (fun col => coin col row) c).mpr
        (fun col hcol => hcoin col hcol row hrow)
